import Mathlib

/-!
Verification development for the `properties` package
(an insertion-order-preserving map of hierarchical `key=value` properties).

The Go code is shallowly embedded: the unordered Go `map[string]string` is
modelled as an association list `kv` (well-formed maps never hold duplicate
keys), the insertion-order slice as the list `o`.  Go strings are modelled
as Lean `String`s (lists of Unicode code points; Go code only slices at
rune boundaries here, so byte-level and rune-level slicing agree).
Unbounded `for` loops are modelled with an explicit fuel argument that is
proved sufficient.  Machine integers never overflow in the modelled code
paths except inside `strconv.Atoi`, whose out-of-range failure is modelled
explicitly.
-/

namespace Properties

/-- Character class of Go's `unicode.IsSpace` (used by `strings.TrimSpace`). -/
def goIsSpace (c : Char) : Bool :=
  c = ' ' || c = '\t' || c = '\n' || c.toNat = 11 || c.toNat = 12 || c = '\r' ||
  c.toNat = 0x85 || c.toNat = 0xA0 || c.toNat = 0x1680 ||
  (0x2000 ≤ c.toNat && c.toNat ≤ 0x200A) ||
  c.toNat = 0x2028 || c.toNat = 0x2029 || c.toNat = 0x202F ||
  c.toNat = 0x205F || c.toNat = 0x3000

/-- `strings.TrimSpace` on the underlying character list. -/
def trimList (l : List Char) : List Char :=
  ((l.dropWhile goIsSpace).reverse.dropWhile goIsSpace).reverse

/-- `strings.TrimSpace`. -/
def trimString (s : String) : String :=
  ⟨trimList s.data⟩

/-- Lookup in the association list modelling Go's `map[string]string`:
`m.kv[key]` with comma-ok semantics. -/
def kvLookup : List (String × String) → String → Option String
  | [], _ => none
  | p :: rest, key => if p.1 = key then some p.2 else kvLookup rest key

/-- The order-slice part of `Map.Remove`: Go scans `m.o` and splices out the
first element equal to `key`, then returns. -/
def removeFirst : List String → String → List String
  | [], _ => []
  | x :: xs, key => if x = key then xs else x :: removeFirst xs key

/-- The `Map` container: `kv` models the Go hash map, `o` the insertion
order slice, `Debug` the debug flag. -/
structure Map where
  kv : List (String × String)
  o : List String
  Debug : Bool
deriving DecidableEq

/-- `NewMap` returns a new empty Map. -/
def NewMap : Map :=
  { kv := [], o := [], Debug := false }

/-- `Get` retrieves the value corresponding to key (zero value `""` when
absent, as for a Go map read). -/
def Map.Get (m : Map) (key : String) : String :=
  (kvLookup m.kv key).getD ""

/-- `GetOk` retrieves the value together with a presence indicator. -/
def Map.GetOk (m : Map) (key : String) : String × Bool :=
  match kvLookup m.kv key with
  | some v => (v, true)
  | none => ("", false)

/-- `ContainsKey` returns true if the map contains the specified key. -/
def Map.ContainsKey (m : Map) (key : String) : Bool :=
  (kvLookup m.kv key).isSome

/-- `ContainsValue` returns true if the map contains the specified value. -/
def Map.ContainsValue (m : Map) (value : String) : Bool :=
  m.kv.any (fun p => p.2 == value)

/-- `Remove` removes the key from the map: Go deletes it from the hash map
and splices the first matching entry out of the order slice. -/
def Map.Remove (m : Map) (key : String) : Map :=
  { m with kv := m.kv.filter (fun p => p.1 != key), o := removeFirst m.o key }

/-- `Set` inserts or replaces a key-value pair: an existing key is removed
first, then the pair is (re-)appended. -/
def Map.Set (m : Map) (key value : String) : Map :=
  let m1 := if (kvLookup m.kv key).isSome then m.Remove key else m
  { m1 with kv := m1.kv ++ [(key, value)], o := m1.o ++ [key] }

/-- `Size` returns the number of elements in the map. -/
def Map.Size (m : Map) : Nat :=
  m.kv.length

/-- `Keys` returns a snapshot of the keys in insertion order. -/
def Map.Keys (m : Map) : List String :=
  m.o

/-- `Values` returns the values in insertion order. -/
def Map.Values (m : Map) : List String :=
  m.o.map (fun key => m.Get key)

/-- `Merge` applies `Set` for every key of each source, in source order. -/
def Map.Merge (m : Map) (sources : List Map) : Map :=
  sources.foldl
    (fun acc source => source.o.foldl (fun a key => a.Set key (source.Get key)) acc) m

/-- `Clone` makes a copy of the Map (`NewMap().Merge(m)` in the source). -/
def Map.Clone (m : Map) : Map :=
  NewMap.Merge [m]

/-- `SubTree` extracts the sub map of all keys of the form
`rootKey ++ "." ++ rest`, re-keyed to `rest`, preserving relative order. -/
def Map.SubTree (m : Map) (rootKey : String) : Map :=
  m.o.foldl
    (fun acc key =>
      if (rootKey ++ ".").data.isPrefixOf key.data then
        acc.Set ⟨key.data.drop (rootKey ++ ".").data.length⟩ (m.Get key)
      else acc)
    NewMap

/-! ### Decimal conversion (`fmt.Sprintf("%d", n)` / `strconv.Itoa`) -/

/-- The ASCII digit character for `d < 10`. -/
def digitChar (d : Nat) : Char :=
  Char.ofNat (48 + d)

/-- Fuel-driven decimal digit accumulation; `fuel ≥ n` makes the fuel
inexhaustible (the argument is divided by 10 each step). -/
def natDigits : Nat → Nat → List Char → List Char
  | 0, _, acc => acc
  | fuel + 1, n, acc =>
    if n < 10 then digitChar n :: acc
    else natDigits fuel (n / 10) (digitChar (n % 10) :: acc)

/-- Decimal rendering of a natural number, as done by `strconv.Itoa` and
`fmt.Sprintf` with verb `%d` (the modelled indices are non-negative). -/
def natToString (n : Nat) : String :=
  ⟨natDigits (n + 1) n []⟩

/-- The `isNotDigit` closure of `ExtractSubIndexLists`: true when some rune
lies outside `'0'..'9'`. -/
def isNotDigit (s : String) : Bool :=
  s.data.any (fun r => decide (r < '0') || decide (r > '9'))

/-- `strconv.Atoi` restricted to the call sites of this package: the input
has already passed the digit filter, so only all-digit strings occur; Go
additionally fails on the empty string and on values exceeding
`math.MaxInt64`. -/
def atoi? (s : String) : Option Nat :=
  if s.data ≠ [] ∧ s.data.all (fun c => decide ('0' ≤ c) && decide (c ≤ '9')) then
    let n := s.data.foldl (fun acc c => 10 * acc + (c.toNat - 48)) 0
    if n < 2 ^ 63 then some n else none
  else none

/-- Insertion into a sorted list (used to model `sort.Ints`; the sorted
permutation of a list of naturals is unique, so any correct sort models
Go's unstable introsort). -/
def insertSorted (n : Nat) : List Nat → List Nat
  | [] => [n]
  | m :: ms => if n ≤ m then n :: m :: ms else m :: insertSorted n ms

/-- `sort.Ints`: ascending sort. -/
def sortNats (l : List Nat) : List Nat :=
  l.foldr insertSorted []

/-! ### `ExtractSubIndexSets` -/

/-- The unbounded index scan of `ExtractSubIndexSets`, with explicit fuel.
State: current index `idx`, the `haveIndexedProperties` flag, and the
accumulated result.  Go increments `idx` before testing `idx > 1`, so with
the pre-increment value the loop breaks when the probed subtree is empty
and the probed index is at least 1. -/
def scanIdx (p : Map) : Nat → Nat → Bool → List Map → List Map × Bool
  | 0, _, haveIdx, acc => (acc, haveIdx)
  | fuel + 1, idx, haveIdx, acc =>
    let idProps := p.SubTree (natToString idx)
    if idProps.Size > 0 then
      scanIdx p fuel (idx + 1) true (acc ++ [idProps])
    else if 1 ≤ idx then
      (acc, haveIdx)
    else
      scanIdx p fuel (idx + 1) haveIdx acc

/-- `ExtractSubIndexSets`.  The scan exits at the first probed index `≥ 1`
whose subtree is empty; indices `1 .. j-1` all being non-empty forces
`j - 1` distinct keys, so `Size + 2` units of fuel always outlast the Go
loop. -/
def Map.ExtractSubIndexSets (m : Map) (root : String) : List Map :=
  let portIDPropsSet := m.SubTree root
  if portIDPropsSet.Size = 0 then []
  else
    let scanned := scanIdx portIDPropsSet (portIDPropsSet.Size + 2) 0 false []
    if scanned.2 then scanned.1 else scanned.1 ++ [portIDPropsSet]

/-! ### `ExtractSubIndexLists` -/

/-- The numeric-key collection pass of `ExtractSubIndexLists`: child keys
passing the digit filter and parsed by `strconv.Atoi`. -/
def numericIndexes (subProps : Map) : List Nat :=
  subProps.o.foldl
    (fun acc key =>
      if isNotDigit key then acc
      else
        match atoi? key with
        | some idx => acc ++ [idx]
        | none => acc)
    []

/-- The emission loop of `ExtractSubIndexLists` over the sorted index list:
an index equal to its predecessor is skipped, otherwise the value of the
canonical key `strconv.Itoa idx` is emitted when present. -/
def emitLoop (subProps : Map) :
    List Nat → Option Nat → List String → Bool → List String × Bool
  | [], _, res, haveIdx => (res, haveIdx)
  | idx :: rest, prev, res, haveIdx =>
    if prev = some idx then emitLoop subProps rest (some idx) res haveIdx
    else
      match kvLookup subProps.kv (natToString idx) with
      | some v => emitLoop subProps rest (some idx) (res ++ [v]) true
      | none => emitLoop subProps rest (some idx) res haveIdx

/-- `ExtractSubIndexLists`. -/
def Map.ExtractSubIndexLists (m : Map) (root : String) : List String :=
  let subProps := m.SubTree root
  let indexes := sortNats (numericIndexes subProps)
  let emitted := emitLoop subProps indexes none [] false
  if emitted.2 then emitted.1
  else
    match kvLookup m.kv root with
    | some value => emitted.1 ++ [value]
    | none => emitted.1

/-! ### `strings.Replace` and the expansion engine -/

/-- `strings.Replace(s, "", new, -1)`: with the empty pattern, Go inserts
`new` at every rune boundary (never reached from the expansion engine,
whose patterns contain braces). -/
def interleaveAll (new : List Char) : List Char → List Char
  | [] => new
  | c :: rest => new ++ c :: interleaveAll new rest

/-- `strings.Replace(s, old, new, -1)` for non-empty `old`: leftmost,
non-overlapping replacement of every occurrence.  One unit of fuel is
spent per retained or replaced character, so `s.length` fuel is enough. -/
def replaceAllAux (old new : List Char) : Nat → List Char → List Char
  | 0, s => s
  | _ + 1, [] => []
  | fuel + 1, c :: rest =>
    if old.isPrefixOf (c :: rest) then
      new ++ replaceAllAux old new fuel ((c :: rest).drop old.length)
    else
      c :: replaceAllAux old new fuel rest

/-- `strings.Replace(s, old, new, -1)`. -/
def replaceAll (s old new : String) : String :=
  if old.data = [] then ⟨interleaveAll new.data s.data⟩
  else ⟨replaceAllAux old.data new.data s.data.length s.data⟩

/-- One pass of `expandProps`: for every entry, replace every occurrence of
the brace-wrapped key by its value.  Go ranges over the unordered hash
map; the model takes the enumeration as the list `kv`. -/
def onePass (kv : List (String × String)) (s : String) : String :=
  kv.foldl (fun t p => replaceAll t ("\x7b" ++ p.1 ++ "\x7d") p.2) s

/-- The pass loop of `expandProps`: at most `fuel` passes, stopping early
at a fixed point (Go runs `for i := 0; i < 10; i++` with a break on
`str == newStr`). -/
def expandLoop (kv : List (String × String)) : Nat → String → String
  | 0, s => s
  | fuel + 1, s =>
    let newStr := onePass kv s
    if s = newStr then s else expandLoop kv fuel newStr

/-- `expandProps` (the debug flag only produces console output in Go and
has no effect on the returned string). -/
def Map.expandProps (m : Map) (s : String) : String :=
  expandLoop m.kv 10 s

/-- `ExpandPropsInString`. -/
def Map.ExpandPropsInString (m : Map) (s : String) : String :=
  m.expandProps s

/-! ### `parseLine` -/

/-- `strings.SplitN(line, "=", 2)` at the character level: `none` when no
`'='` occurs (the malformed-line error case), otherwise the text before
the first `'='` and the remainder after it. -/
def splitEq : List Char → Option (List Char × List Char)
  | [] => none
  | c :: rest =>
    if c = '=' then some ([], rest)
    else
      match splitEq rest with
      | some (a, b) => some (c :: a, b)
      | none => none

/-- `strings.Replace(s, old, new, 1)` for non-empty `old`: replace the
leftmost occurrence only. -/
def replaceOnceAux (old new : List Char) : List Char → List Char
  | [] => []
  | c :: rest =>
    if old.isPrefixOf (c :: rest) then new ++ (c :: rest).drop old.length
    else c :: replaceOnceAux old new rest

/-- `strings.Replace(s, old, new, 1)`. -/
def replaceOnce (s old new : String) : String :=
  if old.data = [] then new ++ s
  else ⟨replaceOnceAux old.data new.data s.data⟩

/-- `parseLine`.  The global `osSuffix` variable is threaded as an explicit
parameter; `none` models the `"invalid line format"` error. -/
def Map.parseLine (m : Map) (osSuffix : String) (line : String) : Option Map :=
  let line := trimString line
  if line.data = [] then some m
  else if line.data.head? = some '#' then some m
  else
    match splitEq line.data with
    | none => none
    | some (k, v) =>
      let key := trimString ⟨k⟩
      let value := trimString ⟨v⟩
      let key := replaceOnce key ("." ++ osSuffix) ""
      some (m.Set key value)

/-! ### `SplitQuotedString` -/

/-- The zero rune, Go's sentinel for "not inside a quoted run". -/
def c0 : Char :=
  Char.ofNat 0

/-- `strings.Split(src, " ")` (single-space separator; consecutive spaces
produce empty fields, and the result is never the empty list). -/
def splitSpace : List Char → List (List Char)
  | [] => [[]]
  | c :: rest =>
    if c = ' ' then [] :: splitSpace rest
    else
      match splitSpace rest with
      | t :: ts => (c :: t) :: ts
      | [] => [[c]]

/-- `firstRune`: Lean strings are always valid Unicode, so Go's
`utf8.ValidString` guard is always true and only the empty case yields the
zero rune. -/
def firstRune (s : List Char) : Char :=
  match s with
  | [] => c0
  | c :: _ => c

/-- `lastRune` (same remark as `firstRune`). -/
def lastRune (s : List Char) : Char :=
  match s.getLast? with
  | none => c0
  | some c => c

/-- Loop state of `SplitQuotedString`: accumulated result, the opening
quote currently being escaped (`c0` when outside a quoted run, exactly
Go's `rune(0)` sentinel), and the accumulated quoted text. -/
structure SplitState where
  result : List String
  escapingChar : Char
  escapedArg : String
deriving DecidableEq

/-- The tail of the loop body, reached either in escaping mode or just
after an opening quote was stripped: close the quoted run if the field
ends with the opening quote, otherwise keep accumulating. -/
def splitTail (acceptEmptyArguments : Bool) (st : SplitState) (current : List Char) :
    SplitState :=
  let last := lastRune current
  if last ≠ st.escapingChar then
    { st with escapedArg := st.escapedArg ++ ⟨current⟩ ++ " " }
  else
    let arg := st.escapedArg ++ ⟨current.dropLast⟩
    if acceptEmptyArguments || trimString arg ≠ "" then
      { result := st.result ++ [arg], escapingChar := c0, escapedArg := arg }
    else
      { st with escapingChar := c0, escapedArg := arg }

/-- The loop body of `SplitQuotedString`, processing one space-separated
field. -/
def splitStep (isQ : Char → Bool) (acceptEmptyArguments : Bool)
    (st : SplitState) (current : List Char) : SplitState :=
  if st.escapingChar = c0 then
    let first := firstRune current
    if !isQ first then
      if acceptEmptyArguments || trimString ⟨current⟩ ≠ "" then
        { st with result := st.result ++ [⟨current⟩] }
      else st
    else
      splitTail acceptEmptyArguments
        { st with escapingChar := first, escapedArg := "" } (current.drop 1)
  else
    splitTail acceptEmptyArguments st current

/-- `SplitQuotedString`: the error value is modelled as `Option Char`
carrying the unclosed opening quote (Go formats it into the message
`invalid quoting, no closing %c char found`). -/
def SplitQuotedString (src quoteChars : String) (acceptEmptyArguments : Bool) :
    List String × Option Char :=
  let isQ := fun c => quoteChars.data.contains c
  let st :=
    (splitSpace src.data).foldl (splitStep isQ acceptEmptyArguments)
      { result := [], escapingChar := c0, escapedArg := "" }
  (st.result, if st.escapingChar ≠ c0 then some st.escapingChar else none)

/-! ### Specification-side notions used by the amended claims -/

/-- Adjacent de-duplication with an explicit "previous element" accumulator,
mirroring the `indexes[i-1]` comparison of the emission loop of
`ExtractSubIndexLists`. -/
def dedupPrev : List Nat → Option Nat → List Nat
  | [], _ => []
  | i :: rest, prev =>
    if prev = some i then dedupPrev rest (some i)
    else i :: dedupPrev rest (some i)

/-- The pattern `old` occurs in `s` at position `i`. -/
def occursAt (old s : List Char) (i : Nat) : Prop :=
  old.isPrefixOf (s.drop i) = true

instance (old s : List Char) (i : Nat) : Decidable (occursAt old s i) := by
  unfold occursAt
  infer_instance

/-- The pattern `old` occurs in `s` at position `i` and at no earlier
position. -/
def firstOccurAt (old s : List Char) (i : Nat) : Prop :=
  occursAt old s i ∧ ∀ j, j < i → ¬ occursAt old s j

instance (old s : List Char) (i : Nat) : Decidable (firstOccurAt old s i) := by
  unfold firstOccurAt
  infer_instance

/-! ### The ordered-map invariant -/

/-- Well-formedness of a `Map`: the order slice has no duplicates, the
association list models a genuine hash map (no duplicate keys), and the
two structures hold exactly the same keys. -/
def WF (m : Map) : Prop :=
  m.o.Nodup ∧ (m.kv.map Prod.fst).Nodup ∧
  (∀ k ∈ m.o, (kvLookup m.kv k).isSome = true) ∧
  (∀ p ∈ m.kv, p.1 ∈ m.o)

instance (m : Map) : Decidable (WF m) := by
  unfold WF
  infer_instance

theorem kvLookup_isSome_iff (l : List (String × String)) (k : String) :
    (kvLookup l k).isSome = true ↔ k ∈ l.map Prod.fst := by
  induction l with
  | nil => simp [kvLookup]
  | cons p rest ih =>
    simp only [kvLookup, List.map_cons, List.mem_cons]
    by_cases h : p.1 = k
    · simp [h]
    · simp only [h, if_false, ih]
      constructor
      · exact fun hm => Or.inr hm
      · rintro (hk | hm)
        · exact absurd hk.symm h
        · exact hm

theorem kvLookup_append_left (l1 l2 : List (String × String)) (k : String)
    (h : (kvLookup l1 k).isSome = true) :
    kvLookup (l1 ++ l2) k = kvLookup l1 k := by
  induction l1 with
  | nil => simp [kvLookup] at h
  | cons p rest ih =>
    by_cases hp : p.1 = k
    · simp [kvLookup, hp]
    · simp only [kvLookup, hp, if_false, List.cons_append] at h ⊢
      exact ih h

theorem kvLookup_append_right (l1 l2 : List (String × String)) (k : String)
    (h : kvLookup l1 k = none) :
    kvLookup (l1 ++ l2) k = kvLookup l2 k := by
  induction l1 with
  | nil => simp
  | cons p rest ih =>
    by_cases hp : p.1 = k
    · simp [kvLookup, hp] at h
    · simp only [kvLookup, hp, if_false, List.cons_append] at h ⊢
      exact ih h

theorem kvLookup_filter_self (l : List (String × String)) (k : String) :
    kvLookup (l.filter (fun p => p.1 != k)) k = none := by
  induction l with
  | nil => simp [kvLookup]
  | cons p rest ih =>
    by_cases hp : p.1 = k
    · simp [List.filter_cons, hp, ih]
    · simp [List.filter_cons, hp, kvLookup, ih]

theorem kvLookup_filter_ne (l : List (String × String)) (k k' : String)
    (h : k' ≠ k) :
    kvLookup (l.filter (fun p => p.1 != k)) k' = kvLookup l k' := by
  induction l with
  | nil => simp
  | cons p rest ih =>
    by_cases hp : p.1 = k
    · have h1 : (p.1 != k) = false := by simp [hp]
      have h2 : p.1 ≠ k' := fun hh => h (hh ▸ hp)
      rw [List.filter_cons, h1]
      simp only [Bool.false_eq_true, if_false]
      rw [ih]
      simp [kvLookup, h2]
    · have h1 : (p.1 != k) = true := by simp [hp]
      rw [List.filter_cons, h1]
      simp only [if_true]
      by_cases hp' : p.1 = k' <;> simp [kvLookup, hp', ih]

theorem map_fst_filter (l : List (String × String)) (k : String) :
    (l.filter (fun p => p.1 != k)).map Prod.fst =
      (l.map Prod.fst).filter (fun x => x != k) := by
  induction l with
  | nil => rfl
  | cons p rest ih =>
    by_cases hp : p.1 = k <;> simp [List.filter_cons, hp, ih]

theorem filter_ne_eq_self (l : List (String × String)) (k : String)
    (h : k ∉ l.map Prod.fst) : l.filter (fun p => p.1 != k) = l := by
  induction l with
  | nil => rfl
  | cons p rest ih =>
    simp only [List.map_cons, List.mem_cons, not_or] at h
    have hp : p.1 ≠ k := fun hh => h.1 (hh ▸ rfl)
    simp [List.filter_cons, hp, ih h.2]

theorem length_filter_ne (l : List (String × String)) (k : String)
    (hn : (l.map Prod.fst).Nodup) (hk : k ∈ l.map Prod.fst) :
    (l.filter (fun p => p.1 != k)).length = l.length - 1 := by
  induction l with
  | nil => simp at hk
  | cons p rest ih =>
    simp only [List.map_cons, List.nodup_cons] at hn
    by_cases hp : p.1 = k
    · have : k ∉ rest.map Prod.fst := hp ▸ hn.1
      simp [List.filter_cons, hp, filter_ne_eq_self rest k this]
    · simp only [List.map_cons, List.mem_cons] at hk
      rcases hk with hk | hk
      · exact absurd hk.symm hp
      · have hlen : 0 < rest.length := by
          rcases rest with _ | ⟨q, rest'⟩
          · simp at hk
          · simp
        have ihh := ih hn.2 hk
        have h1 : (p.1 != k) = true := by simp [hp]
        rw [List.filter_cons, h1]
        simp only [if_true, List.length_cons, ihh]
        omega

theorem removeFirst_sublist (l : List String) (k : String) :
    (removeFirst l k).Sublist l := by
  induction l with
  | nil => simp [removeFirst]
  | cons x xs ih =>
    by_cases hx : x = k
    · subst hx
      simp only [removeFirst, if_pos rfl]
      exact List.sublist_cons_self x xs
    · simp only [removeFirst, hx, if_false]
      exact ih.cons₂ x

theorem mem_removeFirst_of_ne (l : List String) (k x : String)
    (hne : x ≠ k) (hx : x ∈ l) : x ∈ removeFirst l k := by
  induction l with
  | nil => simp at hx
  | cons y ys ih =>
    rcases List.mem_cons.mp hx with h | h
    · subst h
      simp [removeFirst, hne]
    · by_cases hy : y = k
      · simpa [removeFirst, hy] using h
      · simp [removeFirst, hy, ih h]

theorem not_mem_removeFirst (l : List String) (k : String) (hn : l.Nodup) :
    k ∉ removeFirst l k := by
  induction l with
  | nil => simp [removeFirst]
  | cons y ys ih =>
    simp only [List.nodup_cons] at hn
    by_cases hy : y = k
    · simpa [removeFirst, hy] using (hy ▸ hn.1)
    · simp only [removeFirst, hy, if_false, List.mem_cons, not_or]
      exact ⟨fun h => hy h.symm, ih hn.2⟩

theorem length_removeFirst_of_mem (l : List String) (k : String)
    (h : k ∈ l) : (removeFirst l k).length = l.length - 1 := by
  induction l with
  | nil => simp at h
  | cons y ys ih =>
    by_cases hy : y = k
    · simp [removeFirst, hy]
    · rcases List.mem_cons.mp h with h' | h'
      · exact absurd h'.symm hy
      · have hlen : 0 < ys.length := List.length_pos.mpr (List.ne_nil_of_mem h')
        simp only [removeFirst, hy, if_false, List.length_cons, ih h']
        omega

theorem wf_newMap : WF NewMap := by
  refine ⟨List.nodup_nil, List.nodup_nil, ?_, ?_⟩ <;> intro k hk <;> simp [NewMap] at hk

theorem wf_remove (m : Map) (k : String) (h : WF m) : WF (m.Remove k) := by
  obtain ⟨ho, hkv, hok, hko⟩ := h
  refine ⟨?_, ?_, ?_, ?_⟩
  · exact (removeFirst_sublist m.o k).nodup ho
  · rw [Map.Remove, map_fst_filter]
    exact hkv.filter _
  · intro k' hk'
    have hmem : k' ∈ m.o := (removeFirst_sublist m.o k).subset hk'
    have hne : k' ≠ k := by
      intro hh
      exact not_mem_removeFirst m.o k ho (hh ▸ hk')
    rw [Map.Remove] at hk' ⊢
    simp only at hk' ⊢
    rw [kvLookup_filter_ne m.kv k k' hne]
    exact hok k' hmem
  · intro p hp
    rw [Map.Remove] at hp ⊢
    simp only [List.mem_filter] at hp
    have hne : p.1 ≠ k := by simpa using hp.2
    exact mem_removeFirst_of_ne m.o k p.1 hne (hko p hp.1)

theorem wf_set (m : Map) (k v : String) (h : WF m) : WF (m.Set k v) := by
  by_cases hc : (kvLookup m.kv k).isSome = true
  · have h1 := wf_remove m k h
    obtain ⟨ho, hkv, hok, hko⟩ := h1
    have hknot : kvLookup (m.Remove k).kv k = none := kvLookup_filter_self m.kv k
    have hknotmem : k ∉ ((m.Remove k).kv.map Prod.fst) := by
      intro hh
      rw [← kvLookup_isSome_iff] at hh
      rw [hknot] at hh
      simp at hh
    have hkonot : k ∉ (m.Remove k).o := not_mem_removeFirst m.o k (And.left h)
    simp only [Map.Set, hc, if_true]
    refine ⟨?_, ?_, ?_, ?_⟩
    · exact ho.append (List.nodup_singleton k) (by
        intro x hx hx'
        simp only [List.mem_singleton] at hx'
        exact hkonot (hx' ▸ hx))
    · rw [List.map_append]
      exact hkv.append (List.nodup_singleton k) (by
        intro x hx hx'
        simp only [List.map_cons, List.map_nil, List.mem_singleton] at hx'
        exact hknotmem (hx' ▸ hx))
    · intro k' hk'
      rcases List.mem_append.mp hk' with hm | hm
      · have := hok k' hm
        rw [kvLookup_append_left _ _ _ this]
        exact this
      · simp only [List.mem_singleton] at hm
        subst hm
        rw [kvLookup_append_right _ _ _ hknot]
        simp [kvLookup]
    · intro p hp
      rcases List.mem_append.mp hp with hm | hm
      · exact List.mem_append_left _ (hko p hm)
      · simp only [List.mem_singleton] at hm
        subst hm
        exact List.mem_append_right _ (by simp)
  · obtain ⟨ho, hkv, hok, hko⟩ := h
    have hkonot : k ∉ m.o := fun hh => hc (hok k hh)
    have hknotmem : k ∉ m.kv.map Prod.fst := by
      intro hh
      exact hc ((kvLookup_isSome_iff m.kv k).mpr hh)
    have hknone : kvLookup m.kv k = none := by
      cases hx : kvLookup m.kv k with
      | none => rfl
      | some v' => exact absurd (by simp [hx]) hc
    simp only [Map.Set, hc, Bool.false_eq_true, if_false]
    refine ⟨?_, ?_, ?_, ?_⟩
    · exact ho.append (List.nodup_singleton k) (by
        intro x hx hx'
        simp only [List.mem_singleton] at hx'
        exact hkonot (hx' ▸ hx))
    · rw [List.map_append]
      exact hkv.append (List.nodup_singleton k) (by
        intro x hx hx'
        simp only [List.map_cons, List.map_nil, List.mem_singleton] at hx'
        exact hknotmem (hx' ▸ hx))
    · intro k' hk'
      rcases List.mem_append.mp hk' with hm | hm
      · have := hok k' hm
        rw [kvLookup_append_left _ _ _ this]
        exact this
      · simp only [List.mem_singleton] at hm
        subst hm
        rw [kvLookup_append_right _ _ _ hknone]
        simp [kvLookup]
    · intro p hp
      rcases List.mem_append.mp hp with hm | hm
      · exact List.mem_append_left _ (hko p hm)
      · simp only [List.mem_singleton] at hm
        subst hm
        exact List.mem_append_right _ (by simp)

theorem wf_foldl {α : Type} (step : Map → α → Map)
    (hstep : ∀ a x, WF a → WF (step a x)) :
    ∀ (xs : List α) (acc : Map), WF acc → WF (xs.foldl step acc) := by
  intro xs
  induction xs with
  | nil => intro acc h; exact h
  | cons x rest ih =>
    intro acc h
    exact ih (step acc x) (hstep acc x h)

theorem wf_subTree (m : Map) (root : String) : WF (m.SubTree root) := by
  rw [Map.SubTree]
  refine wf_foldl _ ?_ m.o NewMap wf_newMap
  intro a key h
  by_cases hp : ((root ++ ".").data.isPrefixOf key.data) = true
  · rw [if_pos hp]
    exact wf_set a _ _ h
  · rw [if_neg hp]
    exact h

theorem wf_merge (m : Map) (sources : List Map) (h : WF m) :
    WF (m.Merge sources) := by
  rw [Map.Merge]
  exact wf_foldl _
    (fun acc source hacc =>
      wf_foldl _ (fun a key ha => wf_set a key (source.Get key) ha) source.o acc hacc)
    sources m h

theorem wf_clone (m : Map) : WF m.Clone :=
  wf_merge NewMap [m] wf_newMap

theorem wf_parseLine (m : Map) (osSuffix line : String) (m' : Map)
    (h : WF m) (hp : m.parseLine osSuffix line = some m') : WF m' := by
  rw [Map.parseLine] at hp
  by_cases h1 : (trimString line).data = []
  · simp only [h1, if_pos rfl] at hp
    exact (Option.some_injective _ hp) ▸ h
  · simp only [h1, if_neg h1] at hp
    by_cases h2 : (trimString line).data.head? = some '#'
    · simp only [h2, if_pos rfl] at hp
      exact (Option.some_injective _ hp) ▸ h
    · simp only [h2, if_neg h2] at hp
      cases hs : splitEq (trimString line).data with
      | none => rw [hs] at hp; simp at hp
      | some kv =>
        rw [hs] at hp
        simp only at hp
        have := Option.some_injective _ hp
        exact this ▸ wf_set m _ _ h

theorem wf_keys_size (m : Map) (h : WF m) :
    m.Keys.length = m.Size ∧ m.Keys.Nodup := by
  obtain ⟨ho, hkv, hok, hko⟩ := h
  refine ⟨?_, ho⟩
  have hperm : m.o.Perm (m.kv.map Prod.fst) := by
    rw [List.perm_ext_iff_of_nodup ho hkv]
    intro a
    constructor
    · intro ha
      exact (kvLookup_isSome_iff m.kv a).mp (hok a ha)
    · intro ha
      obtain ⟨p, hp, hpa⟩ := List.mem_map.mp ha
      exact hpa ▸ hko p hp
  rw [Map.Keys, Map.Size, hperm.length_eq, List.length_map]

/-! ### Claims about the ordered-map invariant -/

/-- C5: the order sequence contains exactly the keys of the key/value
mapping, each exactly once, and this invariant is preserved by `NewMap`,
`Set`, `Remove`, `Merge`, `parseLine`, `SubTree` and `Clone`; consequently
`m.Keys.length = m.Size` and `m.Keys` has no duplicates. -/
theorem claim_C5_invariant :
    WF NewMap ∧
    (∀ m k v, WF m → WF (m.Set k v)) ∧
    (∀ m k, WF m → WF (m.Remove k)) ∧
    (∀ m sources, WF m → WF (m.Merge sources)) ∧
    (∀ m osSuffix line m', WF m → m.parseLine osSuffix line = some m' → WF m') ∧
    (∀ (m : Map) (root : String), WF (m.SubTree root)) ∧
    (∀ m, WF m → WF m.Clone) ∧
    (∀ m, WF m → m.Keys.length = m.Size ∧ m.Keys.Nodup) :=
  ⟨wf_newMap, fun m k v h => wf_set m k v h, fun m k h => wf_remove m k h,
   fun m s h => wf_merge m s h,
   fun m sfx ln m' h hp => wf_parseLine m sfx ln m' h hp,
   fun m r => wf_subTree m r, fun m _ => wf_clone m,
   fun m h => wf_keys_size m h⟩

theorem claim_C5_invariant_witness :
    WF ((NewMap.Set "a" "1").Set "b" "2") ∧
    ((NewMap.Set "a" "1").Set "b" "2").Keys.length =
      ((NewMap.Set "a" "1").Set "b" "2").Size := by
  refine ⟨?_, ?_⟩
  · exact claim_C5_invariant.2.1 _ "b" "2"
      (claim_C5_invariant.2.1 _ "a" "1" claim_C5_invariant.1)
  · exact (claim_C5_invariant.2.2.2.2.2.2.2 _
      (claim_C5_invariant.2.1 _ "b" "2"
        (claim_C5_invariant.2.1 _ "a" "1" claim_C5_invariant.1))).1

/-- C6: setting an already-present key `k` leaves the size unchanged,
makes `Get k` return the new value, and moves `k` to the last position of
the key order. -/
theorem claim_C6_reset (m : Map) (k v : String) (hwf : WF m)
    (hk : (kvLookup m.kv k).isSome = true) :
    (m.Set k v).Size = m.Size ∧ (m.Set k v).Get k = v ∧
      (m.Set k v).Keys.getLast? = some k := by
  obtain ⟨ho, hkv, hok, hko⟩ := hwf
  have hmem : k ∈ m.kv.map Prod.fst := (kvLookup_isSome_iff m.kv k).mp hk
  refine ⟨?_, ?_, ?_⟩
  · have hsize : (m.Set k v).kv.length =
        (m.kv.filter (fun p => p.1 != k)).length + 1 := by
      simp [Map.Set, hk, Map.Remove]
    have hpos : 0 < m.kv.length := by
      cases hkvl : m.kv with
      | nil => rw [hkvl] at hmem; simp at hmem
      | cons q qs => simp [hkvl]
    rw [Map.Size, Map.Size, hsize, length_filter_ne m.kv k hkv hmem]
    omega
  · have hkv' : (m.Set k v).kv = m.kv.filter (fun p => p.1 != k) ++ [(k, v)] := by
      simp [Map.Set, hk, Map.Remove]
    rw [Map.Get, hkv',
      kvLookup_append_right _ _ _ (kvLookup_filter_self m.kv k)]
    simp [kvLookup]
  · have ho' : (m.Set k v).o = removeFirst m.o k ++ [k] := by
      simp [Map.Set, hk, Map.Remove]
    rw [Map.Keys, ho', List.getLast?_concat]

theorem claim_C6_reset_witness :
    ((NewMap.Set "a" "1").Set "a" "2").Size = (NewMap.Set "a" "1").Size ∧
    ((NewMap.Set "a" "1").Set "a" "2").Get "a" = "2" ∧
    ((NewMap.Set "a" "1").Set "a" "2").Keys.getLast? = some "a" :=
  claim_C6_reset (NewMap.Set "a" "1") "a" "2" (by decide) (by decide)

/-! ### Claims about `ExtractSubIndexLists` -/

/-- C9: on the map with keys `sette.discovery.something.{01,2,05,5}` bound
to `itemA..itemD` in that insertion order, `ExtractSubIndexLists` yields
exactly `["itemB", "itemD"]`. -/
theorem claim_C9_concrete :
    ((((NewMap.Set "sette.discovery.something.01" "itemA").Set
        "sette.discovery.something.2" "itemB").Set
        "sette.discovery.something.05" "itemC").Set
        "sette.discovery.something.5" "itemD").ExtractSubIndexLists
      "sette.discovery.something" = ["itemB", "itemD"] := by
  decide

/-- C1 counterexample: the map `{"p.05": "X"}` has the zero-padded numeric
child `"05"` under prefix `"p"`, with no unpadded duplicate; the claim
predicts `["X"]`, but the code looks the value up under the canonical key
`"5"`, finds nothing, and returns `[]`. -/
theorem claim_C1_counterexample :
    (NewMap.Set "p.05" "X").ExtractSubIndexLists "p" = [] ∧
    (NewMap.Set "p.05" "X").ExtractSubIndexLists "p" ≠ ["X"] := by
  decide

/-! ### Claims about `ExtractSubIndexSets` -/

/-- C2 counterexample: when `subTree(prefix)` is empty the function
returns the empty list, not a one-element list holding the empty
subtree. -/
theorem claim_C2_counterexample :
    NewMap.ExtractSubIndexSets "x" = ([] : List Map) ∧
    NewMap.ExtractSubIndexSets "x" ≠ [NewMap.SubTree "x"] := by
  decide

/-! ### Claims about `parseLine` -/

/-- C4 counterexample: with platform suffix `macosx`, the line
`a.macosx.b=v` has `.macosx` only in the middle of the key, yet the key is
inserted as `a.b` (first occurrence removed), not unchanged. -/
theorem claim_C4_counterexample :
    (NewMap.parseLine "macosx" "a.macosx.b=v").map
      (fun m => (m.ContainsKey "a.macosx.b", m.ContainsKey "a.b")) =
      some (false, true) := by
  decide

/-! ### Claims about the expansion engine -/

theorem expandLoop_iterate (kv : List (String × String)) :
    ∀ (fuel : Nat) (s : String),
      ∃ n, n ≤ fuel ∧ expandLoop kv fuel s = Nat.iterate (onePass kv) n s := by
  intro fuel
  induction fuel with
  | zero => exact fun s => ⟨0, Nat.le_refl 0, rfl⟩
  | succ f ih =>
    intro s
    by_cases h : s = onePass kv s
    · refine ⟨0, Nat.zero_le _, ?_⟩
      simp only [expandLoop, if_pos h]
      rfl
    · obtain ⟨n, hn, he⟩ := ih (onePass kv s)
      refine ⟨n + 1, Nat.succ_le_succ hn, ?_⟩
      simp only [expandLoop, if_neg h]
      rw [he, Function.iterate_succ_apply]

/-- C7: expansion never fails or loops: for every map and string it
performs at most 10 substitution passes (the result is an iterate of the
single-pass function of order at most 10), and on the self-referential map
`{key2: "{key2}", key1: "42"}` the input `"{key1} == {key2} == true"`
expands to `"42 == {key2} == true"`, the unresolved marker left
literal. -/
theorem claim_C7_cycle_safe :
    (∀ (m : Map) (s : String),
      ∃ n, n ≤ 10 ∧ m.expandProps s = Nat.iterate (onePass m.kv) n s) ∧
    ((NewMap.Set "key2" "\x7bkey2\x7d").Set "key1" "42").expandProps
        "\x7bkey1\x7d == \x7bkey2\x7d == true" = "42 == \x7bkey2\x7d == true" := by
  constructor
  · exact fun m s => expandLoop_iterate m.kv 10 s
  · decide

/-- C3 counterexample: the two enumeration orders of the map
`{a: "{b}", b: "{a}"}` expand `"{a}"` to different fixed points
(`"{a}"` under the order `a, b`, `"{b}"` under the order `b, a`), so the
result of `expandProps` is not independent of the enumeration order of the
underlying unordered mapping. -/
theorem claim_C3_counterexample :
    [("b", "\x7ba\x7d"), ("a", "\x7bb\x7d")].Perm
      ((NewMap.Set "a" "\x7bb\x7d").Set "b" "\x7ba\x7d").kv ∧
    expandLoop [("b", "\x7ba\x7d"), ("a", "\x7bb\x7d")] 10 "\x7ba\x7d" ≠
      ((NewMap.Set "a" "\x7bb\x7d").Set "b" "\x7ba\x7d").expandProps "\x7ba\x7d" := by
  constructor
  · decide
  · decide

theorem expandLoop_congr (l kv : List (String × String))
    (h : ∀ t, onePass l t = onePass kv t) :
    ∀ fuel s, expandLoop l fuel s = expandLoop kv fuel s := by
  intro fuel
  induction fuel with
  | zero => exact fun s => rfl
  | succ f ih =>
    intro s
    simp only [expandLoop]
    rw [h s]
    by_cases he : s = onePass kv s
    · rw [if_pos he, if_pos he]
    · rw [if_neg he, if_neg he, ih]

/-- C3 amended: the expansion result is unchanged under a re-enumeration
of the map's entries only insofar as the two enumerations induce the same
single-pass substitution function; for enumerations whose passes differ
(interacting markers, as in the counterexample) the result can depend on
the enumeration order, both at the 10-pass cap and at a fixed point. -/
theorem claim_C3_order (m : Map) (l : List (String × String)) (s : String)
    (_hperm : l.Perm m.kv) (hpass : ∀ t, onePass l t = onePass m.kv t) :
    expandLoop l 10 s = m.expandProps s := by
  rw [Map.expandProps]
  exact expandLoop_congr l m.kv hpass 10 s

theorem claim_C3_order_witness :
    expandLoop [("k", "v")] 10 "x" = (NewMap.Set "k" "v").expandProps "x" :=
  claim_C3_order (NewMap.Set "k" "v") [("k", "v")] "x" (by decide) (fun t => rfl)

/-! ### Claims about the `ExtractSubIndexSets` scan -/

theorem scanIdx_step_adequate (p : Map) (N : Nat)
    (h : ∀ i, N < i → (p.SubTree (natToString i)).Size = 0) :
    ∀ (fuel idx : Nat) (haveIdx : Bool) (acc : List Map), N + 2 ≤ idx + fuel →
      scanIdx p (fuel + 1) idx haveIdx acc = scanIdx p fuel idx haveIdx acc := by
  intro fuel
  induction fuel with
  | zero =>
    intro idx haveIdx acc hle
    have hidx : N < idx := by omega
    have h1 : 1 ≤ idx := by omega
    have hsz : ¬ (p.SubTree (natToString idx)).Size > 0 := by
      rw [h idx hidx]
      omega
    simp only [scanIdx]
    rw [if_neg hsz, if_pos h1]
  | succ f ih =>
    intro idx haveIdx acc hle
    simp only [scanIdx]
    by_cases hsz : (p.SubTree (natToString idx)).Size > 0
    · rw [if_pos hsz, if_pos hsz]
      exact ih (idx + 1) true (acc ++ [p.SubTree (natToString idx)]) (by omega)
    · rw [if_neg hsz, if_neg hsz]
      by_cases h1 : 1 ≤ idx
      · rw [if_pos h1, if_pos h1]
      · rw [if_neg h1, if_neg h1]
        exact ih (idx + 1) haveIdx acc (by omega)

theorem scanIdx_stable (p : Map) (N : Nat)
    (h : ∀ i, N < i → (p.SubTree (natToString i)).Size = 0) :
    ∀ d : Nat, scanIdx p (N + 2 + d) 0 false [] = scanIdx p (N + 2) 0 false [] := by
  intro d
  induction d with
  | zero => rfl
  | succ d' ih =>
    have estep : scanIdx p ((N + 2 + d') + 1) 0 false [] =
        scanIdx p (N + 2 + d') 0 false [] :=
      scanIdx_step_adequate p N h (N + 2 + d') 0 false [] (by omega)
    have e : N + 2 + (d' + 1) = (N + 2 + d') + 1 := rfl
    rw [e, estep, ih]

/-- C10: the unbounded index-probing loop of `ExtractSubIndexSets`
terminates.  If every index above `N` has an empty subtree (in particular
when `N` is the largest index with a non-empty indexed subtree), then
`N + 2` units of fuel — i.e. at most `N + 2` probes, and at most `2` when
no indexed subtree exists (`N = 0`) — already determine the loop's result:
any larger fuel produces the same output. -/
theorem claim_C10_termination (m : Map) (root : String) (N : Nat)
    (h : ∀ i, N < i → ((m.SubTree root).SubTree (natToString i)).Size = 0) :
    ∀ fuel, N + 2 ≤ fuel →
      scanIdx (m.SubTree root) fuel 0 false [] =
        scanIdx (m.SubTree root) (N + 2) 0 false [] := by
  intro fuel hfuel
  obtain ⟨d, rfl⟩ : ∃ d, fuel = N + 2 + d := ⟨fuel - (N + 2), by omega⟩
  exact scanIdx_stable (m.SubTree root) N h d

theorem claim_C10_termination_witness :
    (0 : Nat) + 2 ≤ 5 ∧
    scanIdx (NewMap.SubTree "x") 5 0 false [] =
      scanIdx (NewMap.SubTree "x") ((0 : Nat) + 2) 0 false [] :=
  ⟨by decide, claim_C10_termination NewMap "x" 0 (fun i _ => rfl) 5 (by decide)⟩

/-- C2 amended: when `subTree(prefix)` is non-empty and the index scan
finds no non-empty indexed sub-map at its probed indices 0 and 1, the
result is the one-element list holding the whole `subTree(prefix)`; when
`subTree(prefix)` is itself empty the result is the empty list (see the
counterexample), not a one-element list. -/
theorem claim_C2_flat (m : Map) (root : String)
    (hne : (m.SubTree root).Size ≠ 0)
    (h0 : ((m.SubTree root).SubTree (natToString 0)).Size = 0)
    (h1 : ((m.SubTree root).SubTree (natToString 1)).Size = 0) :
    m.ExtractSubIndexSets root = [m.SubTree root] := by
  have hscan : scanIdx (m.SubTree root) ((m.SubTree root).Size + 2) 0 false [] =
      ([], false) := by
    have e : (m.SubTree root).Size + 2 = ((m.SubTree root).Size + 1) + 1 := rfl
    have hsz0 : ¬ ((m.SubTree root).SubTree (natToString 0)).Size > 0 := by
      rw [h0]; omega
    have hsz1 : ¬ ((m.SubTree root).SubTree (natToString 1)).Size > 0 := by
      rw [h1]; omega
    rw [e]
    simp only [scanIdx]
    rw [if_neg hsz0, if_neg (by omega : ¬ 1 ≤ 0),
      show (0 : Nat) + 1 = 1 from rfl, if_neg hsz1, if_pos (by omega : 1 ≤ 1)]
  simp only [Map.ExtractSubIndexSets]
  rw [if_neg hne, hscan]
  simp

theorem claim_C2_flat_witness :
    (NewMap.Set "r.a" "v").ExtractSubIndexSets "r" =
      [(NewMap.Set "r.a" "v").SubTree "r"] :=
  claim_C2_flat (NewMap.Set "r.a" "v") "r" (by decide) (by decide) (by decide)

/-! ### The amended `ExtractSubIndexLists` characterization -/

theorem emitLoop_eq (p : Map) :
    ∀ (l : List Nat) (prev : Option Nat) (res : List String) (hv : Bool),
      emitLoop p l prev res hv =
        (res ++ (dedupPrev l prev).filterMap (fun i => kvLookup p.kv (natToString i)),
         hv || !((dedupPrev l prev).filterMap
            (fun i => kvLookup p.kv (natToString i))).isEmpty) := by
  intro l
  induction l with
  | nil =>
    intro prev res hv
    simp [emitLoop, dedupPrev]
  | cons i rest ih =>
    intro prev res hv
    by_cases hp : prev = some i
    · simp only [emitLoop, dedupPrev, if_pos hp]
      exact ih (some i) res hv
    · simp only [emitLoop, dedupPrev, if_neg hp]
      cases hlk : kvLookup p.kv (natToString i) with
      | some v =>
        simp only [ih, List.filterMap_cons, hlk]
        simp
      | none =>
        simp only [ih, List.filterMap_cons, hlk]

/-- C1 amended: child keys parsing as integers (zero-padded forms included)
are normalized to their integer value, sorted ascending, and equal values
are collapsed to a single emission; but the value emitted at integer
position `idx` is the value of the canonical key `strconv.Itoa idx`
(e.g. `"5"`) when present — regardless of which of the colliding forms was
inserted first — and a zero-padded key whose canonical unpadded form is
absent contributes nothing.  When nothing is emitted, the single
non-indexed value at `root` is returned if present. -/
theorem claim_C1_normalization (m : Map) (root : String) :
    m.ExtractSubIndexLists root =
      (if (dedupPrev (sortNats (numericIndexes (m.SubTree root))) none).filterMap
            (fun i => kvLookup (m.SubTree root).kv (natToString i)) = [] then
        (match kvLookup m.kv root with
         | some value => [value]
         | none => [])
      else
        (dedupPrev (sortNats (numericIndexes (m.SubTree root))) none).filterMap
          (fun i => kvLookup (m.SubTree root).kv (natToString i))) := by
  simp only [Map.ExtractSubIndexLists]
  rw [emitLoop_eq (m.SubTree root) (sortNats (numericIndexes (m.SubTree root))) none [] false]
  by_cases hFe : (dedupPrev (sortNats (numericIndexes (m.SubTree root))) none).filterMap
      (fun i => kvLookup (m.SubTree root).kv (natToString i)) = []
  · rw [if_pos hFe]
    cases hlk : kvLookup m.kv root with
    | some v => simp [hFe, hlk]
    | none => simp [hFe, hlk]
  · rw [if_neg hFe]
    have hie : ((dedupPrev (sortNats (numericIndexes (m.SubTree root))) none).filterMap
        (fun i => kvLookup (m.SubTree root).kv (natToString i))).isEmpty = false := by
      cases hl : (dedupPrev (sortNats (numericIndexes (m.SubTree root))) none).filterMap
          (fun i => kvLookup (m.SubTree root).kv (natToString i)) with
      | nil => exact absurd hl hFe
      | cons x xs => simp
    simp [hie]

/-! ### The amended `parseLine` suffix-stripping characterization -/

theorem splitEq_append (a b : List Char) (h : '=' ∉ a) :
    splitEq (a ++ '=' :: b) = some (a, b) := by
  induction a with
  | nil => simp [splitEq]
  | cons c rest ih =>
    simp only [List.mem_cons, not_or] at h
    have hc : ¬ c = '=' := fun hh => h.1 hh.symm
    simp only [List.cons_append, splitEq, if_neg hc, List.append_eq]
    rw [ih h.2]

theorem isPrefixOf_nil_of_ne (old : List Char) (h : old ≠ []) :
    old.isPrefixOf ([] : List Char) = false := by
  cases old with
  | nil => exact absurd rfl h
  | cons c rest => rfl

theorem replaceOnceAux_no_occur (old new s : List Char) (_hne : old ≠ [])
    (h : ∀ j, ¬ occursAt old s j) : replaceOnceAux old new s = s := by
  induction s with
  | nil => rfl
  | cons c rest ih =>
    have h0 : ¬ old.isPrefixOf (c :: rest) = true := h 0
    rw [replaceOnceAux, if_neg h0]
    have hrest : ∀ j, ¬ occursAt old rest j := fun j => h (j + 1)
    rw [ih hrest]

theorem replaceOnceAux_first_occur (old new : List Char) :
    ∀ (s : List Char) (i : Nat), old ≠ [] → firstOccurAt old s i →
      replaceOnceAux old new s = s.take i ++ new ++ s.drop (i + old.length) := by
  intro s
  induction s with
  | nil =>
    intro i hne hf
    have : old.isPrefixOf (([] : List Char).drop i) = true := hf.1
    rw [List.drop_nil, isPrefixOf_nil_of_ne old hne] at this
    exact absurd this (by simp)
  | cons c rest ih =>
    intro i hne hf
    cases i with
    | zero =>
      have h0 : old.isPrefixOf (c :: rest) = true := hf.1
      rw [replaceOnceAux, if_pos h0]
      simp
    | succ i' =>
      have h0 : ¬ old.isPrefixOf (c :: rest) = true := hf.2 0 (Nat.succ_pos i')
      rw [replaceOnceAux, if_neg h0]
      have hfrest : firstOccurAt old rest i' := by
        refine ⟨hf.1, ?_⟩
        intro j hj
        exact hf.2 (j + 1) (Nat.succ_lt_succ hj)
      rw [ih i' hne hfrest]
      have hdrop : (c :: rest).drop (i' + 1 + old.length) = rest.drop (i' + old.length) := by
        have e : i' + 1 + old.length = (i' + old.length) + 1 := by omega
        rw [e, List.drop_succ_cons]
      rw [List.take_succ_cons, hdrop, List.cons_append, List.cons_append]

/-- C4 amended: `parseLine` removes the FIRST occurrence of
`"." ++ suffix` anywhere in the key, not only a trailing one: (1) a parsed
`key=value` line inserts `replaceOnce key ("." ++ suffix) ""` under the
trimmed value; (2) a key with no occurrence of the marker is unchanged;
(3) a key whose first occurrence of the marker is at position `i` — be it
in the middle or at the end — has exactly that occurrence spliced out. -/
theorem claim_C4_suffix :
    (∀ (m : Map) (sfx k v : String),
      trimString (k ++ "=" ++ v) = k ++ "=" ++ v →
      (k ++ "=" ++ v).data.head? ≠ some '#' →
      '=' ∉ k.data → trimString k = k → trimString v = v →
      m.parseLine sfx (k ++ "=" ++ v) =
        some (m.Set (replaceOnce k ("." ++ sfx) "") v)) ∧
    (∀ (old new s : List Char), old ≠ [] → (∀ j, ¬ occursAt old s j) →
      replaceOnceAux old new s = s) ∧
    (∀ (old new s : List Char) (i : Nat), old ≠ [] → firstOccurAt old s i →
      replaceOnceAux old new s = s.take i ++ new ++ s.drop (i + old.length)) := by
  refine ⟨?_, replaceOnceAux_no_occur, fun old new s i => replaceOnceAux_first_occur old new s i⟩
  intro m sfx k v htrim hhash heq htk htv
  have hdata : (k ++ "=" ++ v).data = k.data ++ '=' :: v.data := by
    rw [String.data_append, String.data_append]
    simp [List.append_assoc]
  have hnil : (k ++ "=" ++ v).data ≠ [] := by
    rw [hdata]
    simp
  simp only [Map.parseLine, htrim]
  rw [if_neg hnil, if_neg hhash, hdata, splitEq_append k.data v.data heq]
  have hk : (⟨k.data⟩ : String) = k := rfl
  have hv : (⟨v.data⟩ : String) = v := rfl
  simp only [hk, hv, htk, htv]

theorem claim_C4_suffix_witness :
    NewMap.parseLine "macosx" ("a.b.macosx" ++ "=" ++ "1") =
      some (NewMap.Set (replaceOnce "a.b.macosx" ("." ++ "macosx") "") "1") ∧
    replaceOnceAux ['.', 'x'] [] ['a', '.', 'x', 'b'] =
      ['a', '.', 'x', 'b'].take 1 ++ [] ++ ['a', '.', 'x', 'b'].drop (1 + 2) :=
  ⟨claim_C4_suffix.1 NewMap "macosx" "a.b.macosx" "1"
      (by decide) (by decide) (by decide) (by decide) (by decide),
   claim_C4_suffix.2.2 ['.', 'x'] [] ['a', '.', 'x', 'b'] 1
      (by decide) ⟨by decide, by decide⟩⟩

/-! ### Claims about `SplitQuotedString` -/

theorem splitTail_quote_inv (isQ : Char → Bool) (a : Bool) (st : SplitState)
    (cur : List Char) (h : st.escapingChar ≠ c0 → isQ st.escapingChar = true) :
    (splitTail a st cur).escapingChar ≠ c0 →
      isQ (splitTail a st cur).escapingChar = true := by
  rw [splitTail]
  by_cases hl : lastRune cur ≠ st.escapingChar
  · rw [if_pos hl]
    exact h
  · rw [if_neg hl]
    by_cases hacc : (a || decide (trimString (st.escapedArg ++ ⟨cur.dropLast⟩) ≠ "")) = true
    · rw [if_pos hacc]
      intro hne
      exact absurd rfl hne
    · rw [if_neg hacc]
      intro hne
      exact absurd rfl hne

theorem splitStep_quote_inv (isQ : Char → Bool) (a : Bool) (st : SplitState)
    (cur : List Char) (h : st.escapingChar ≠ c0 → isQ st.escapingChar = true) :
    (splitStep isQ a st cur).escapingChar ≠ c0 →
      isQ (splitStep isQ a st cur).escapingChar = true := by
  simp only [splitStep]
  by_cases h0 : st.escapingChar = c0
  · rw [if_pos h0]
    by_cases hq : isQ (firstRune cur) = true
    · have hb : (!isQ (firstRune cur)) = false := by simp [hq]
      rw [hb]
      simp only [Bool.false_eq_true, if_false]
      exact splitTail_quote_inv isQ a _ (cur.drop 1) (fun _ => hq)
    · have hb : (!isQ (firstRune cur)) = true := by simp [Bool.not_eq_true] at hq ⊢; exact hq
      rw [hb, if_pos rfl]
      by_cases hacc : (a || decide (trimString ⟨cur⟩ ≠ "")) = true
      · rw [if_pos hacc]
        intro hne
        exact absurd h0 hne
      · rw [if_neg hacc]
        intro hne
        exact absurd h0 hne
  · rw [if_neg h0]
    exact splitTail_quote_inv isQ a st cur h

theorem foldl_quote_inv (isQ : Char → Bool) (a : Bool) :
    ∀ (toks : List (List Char)) (st : SplitState),
      (st.escapingChar ≠ c0 → isQ st.escapingChar = true) →
      ((toks.foldl (splitStep isQ a) st).escapingChar ≠ c0 →
        isQ (toks.foldl (splitStep isQ a) st).escapingChar = true) := by
  intro toks
  induction toks with
  | nil => exact fun st h => h
  | cons t rest ih =>
    intro st h
    exact ih (splitStep isQ a st t) (splitStep_quote_inv isQ a st t h)

/-- C8: when `SplitQuotedString` reaches the end of input with an open,
unclosed quote it returns a non-nil error naming exactly the unclosed
opening quote character (always one of the requested quote characters and
never the zero sentinel), together with the tokens completed before the
quote was opened; with all quotes closed the error is nil, as the two
concrete runs illustrate. -/
theorem claim_C8_unclosed :
    (∀ (src q : String) (a : Bool) (c : Char),
      (SplitQuotedString src q a).2 = some c →
        q.data.contains c = true ∧ c ≠ c0) ∧
    SplitQuotedString "This \"is an example" "\"" false = (["This"], some '"') ∧
    SplitQuotedString "This \"is an\" example" "\"" false =
      (["This", "is an", "example"], none) := by
  refine ⟨?_, by decide, by decide⟩
  intro src q a c hc
  rw [SplitQuotedString] at hc
  simp only at hc
  by_cases hne :
      ((splitSpace src.data).foldl (splitStep (fun ch => q.data.contains ch) a)
        { result := [], escapingChar := c0, escapedArg := "" }).escapingChar ≠ c0
  · rw [if_pos hne] at hc
    have hceq := Option.some_injective _ hc.symm
    have hq := foldl_quote_inv (fun ch => q.data.contains ch) a (splitSpace src.data)
      { result := [], escapingChar := c0, escapedArg := "" }
      (fun hh => absurd rfl hh) hne
    constructor
    · rw [hceq]
      exact hq
    · rw [hceq]
      exact hne
  · rw [if_neg hne] at hc
    exact absurd hc (by simp)

theorem claim_C8_unclosed_witness :
    ("\"" : String).data.contains '"' = true ∧ '"' ≠ c0 :=
  claim_C8_unclosed.1 "This \"is an example" "\"" false '"' (by decide)

end Properties
